import Mathlib

/-!
Shallow embedding of `mayalookassigner/commands.py` (Colorbleed maya look
assigner).  Scene nodes are an abstract type `α` (in Maya they are path
strings).  The external collaborators (the Maya scene API `cmds`, the
document database `io`, the container registry `api` and the look library
`cblib`) are modelled as explicit parameters: functions bundled in an
environment record, and the version collection as an explicit list of
documents.
-/

namespace MLA

/-- Database id values as they appear in queue items: either an opaque
`ObjectId` (carrying its hex string) or a plain string.  `str`/`oid`
distinguish, for the JSON round trip, which Python type the field holds. -/
inductive DBId where
  | oid (s : String) : DBId
  | str (s : String) : DBId
deriving DecidableEq, Repr

/-- Python `str(x)` on a database id: an `ObjectId` renders as its hex
string, a string renders as itself. -/
def DBId.toString : DBId → String
  | .oid s => s
  | .str s => s

/-- Python `io.ObjectId(x)`: builds an `ObjectId` from its string form
(applied to an `ObjectId` it returns an equal `ObjectId`). -/
def objectIdOf (d : DBId) : DBId := DBId.oid d.toString

/-- Python `str(x)` producing a plain string value. -/
def strOf (d : DBId) : DBId := DBId.str d.toString

/-- Whether a database id field currently holds an `ObjectId` value. -/
def DBId.isOid : DBId → Bool
  | .oid _ => true
  | .str _ => false

/-- A subset document as returned by `cblib.list_looks`: its `_id` and name. -/
structure Subset where
  _id : DBId
  name : String
deriving DecidableEq, Repr

/-- A version document in the database (`type`, `parent` and `name` are the
fields the `fetch_looks` query touches; `name` is the version name the
descending sort orders by). -/
structure VersionDoc where
  _id : DBId
  vtype : String
  parent : DBId
  name : String
deriving DecidableEq, Repr

/-- An asset document (`_id`, `parent` and `name` are the fields this
module reads or rewrites). -/
structure Document where
  _id : DBId
  parent : DBId
  name : String
deriving DecidableEq, Repr

instance : Inhabited Document := ⟨⟨DBId.oid "", DBId.oid "", ""⟩⟩

/-- One look record produced by `fetch_looks`:
`{"asset_name": ..., "subset": ..., "version": ...}`. -/
structure LookRecord where
  asset_name : String
  subset : String
  version : Option VersionDoc
deriving DecidableEq, Repr

/-- A loaded container as reported by `host.ls()`. -/
structure Container where
  objectName : String
  loader : String
deriving DecidableEq, Repr

/-- A view / queue item:
`{"asset", "asset_name", "document", "looks", "_id", "nodes"}`. -/
structure Item (α : Type) where
  asset : String
  asset_name : String
  document : Document
  looks : List LookRecord
  _id : String
  nodes : List α
deriving DecidableEq, Repr

/-- One `log.warning` call made by `create_items_from_selection`: either the
"Id not found in the database, skipping '%s'." message or the "Nodes: %s"
message. -/
inductive LogWarning (α : Type) where
  | idNotFound (id : String) : LogWarning α
  | nodesList (nodes : List α) : LogWarning α
deriving DecidableEq, Repr

/-- The external collaborators, bundled: `cblib.get_id`, the asset
`io.find_one` (projection `{"name": True}`), the `cmds.ls` namespace query,
`cblib.list_looks`, the version collection behind the version `io.find_one`,
`host.ls()`, the `cmds.sets(name, query=True)` membership query for a
container's object set, the `cmds.ls(..., type="objectSet")` filter, and
the `cmds.sets(node, query=True)` membership query for an objectSet node. -/
structure Env (α : Type) where
  get_id : α → Option String
  find_asset : String → Option Document
  namespace_of : α → String
  list_looks : DBId → List Subset
  versions : List VersionDoc
  containers : List Container
  set_members : String → List α
  is_objectSet : α → Bool
  node_set_members : α → List α

/-- `value.split(":")[0]`: everything before the first `:` (the whole
string when there is no `:`), as a take-while over the character list. -/
def idHead (value : String) : String := ⟨value.data.takeWhile (fun c => c ≠ ':')⟩

/-- Lookup in the association-list rendering of a Python dict. -/
def lookupHash {α : Type} (k : String) : List (String × List α) → Option (List α)
  | [] => none
  | (k', v) :: rest => if k' = k then some v else lookupHash k rest

/-- `node_id_hash[asset_id].append(node)` on a `defaultdict(list)` rendered
as an association list in key-insertion order. -/
def insertHash {α : Type} (h : List (String × List α)) (key : String) (n : α) :
    List (String × List α) :=
  match h with
  | [] => [(key, [n])]
  | (k, ns) :: rest =>
      if k = key then (k, ns ++ [n]) :: rest else (k, ns) :: insertHash rest key n

/-- One iteration of the `create_asset_id_hash` loop: skip nodes whose
`cblib.get_id` is `None`, otherwise append under `value.split(":")[0]`. -/
def hashStep {α : Type} (get_id : α → Option String)
    (h : List (String × List α)) (node : α) : List (String × List α) :=
  match get_id node with
  | none => h
  | some value => insertHash h (idHead value) node

/-- `create_asset_id_hash(nodes)`: group nodes by the head of their cbId
attribute, skipping nodes without one. -/
def create_asset_id_hash {α : Type} (get_id : α → Option String) (nodes : List α) :
    List (String × List α) :=
  nodes.foldl (hashStep get_id) []

/-- One step of a MongoDB `find_one(..., sort=[("name", -1)])` scan: keep a
matching document of maximal `name` (the first seen among ties, modelling
"sort descending, take the first"). -/
def pickStep (acc : Option VersionDoc) (v : VersionDoc) : Option VersionDoc :=
  match acc with
  | none => some v
  | some best => if best.name < v.name then some v else some best

/-- The version query of `fetch_looks`:
`io.find_one({"type": "version", "parent": parent}, sort=[("name", -1)])`
over the version collection — a matching document of maximal name, or
`none` when no document matches. -/
def find_one_version (versions : List VersionDoc) (parent : DBId) : Option VersionDoc :=
  (versions.filter (fun v => decide (v.vtype = "version" ∧ v.parent = parent))).foldl
    pickStep none

/-- `fetch_looks(asset)`: one record per subset of `cblib.list_looks`,
carrying the asset name, the subset name and the latest-version query
result. -/
def fetch_looks {α : Type} (env : Env α) (asset : Document) : List LookRecord :=
  (env.list_looks asset._id).map (fun subset =>
    { asset_name := asset.name
      subset := subset.name
      version := find_one_version env.versions subset._id })

/-- The view item built for one group of the asset-id hash whose document
was found: `"%s : %s" % (namespace, name)` label, the document, the looks,
the id and the node list. -/
def mkViewItem {α : Type} [Inhabited α] (env : Env α) (p : String × List α)
    (document : Document) : Item α :=
  { asset := env.namespace_of (p.2.headD default) ++ " : " ++ document.name
    asset_name := document.name
    document := document
    looks := fetch_looks env document
    _id := p.1
    nodes := p.2 }

/-- One iteration of the `create_items_from_selection` loop over the hash:
append a view item when the asset document is found, otherwise log the two
warnings and skip the group. -/
def cisStep {α : Type} [Inhabited α] (env : Env α)
    (acc : List (Item α) × List (LogWarning α)) (p : String × List α) :
    List (Item α) × List (LogWarning α) :=
  match env.find_asset p.1 with
  | none => (acc.1, acc.2 ++ [LogWarning.idNotFound p.1, LogWarning.nodesList p.2])
  | some document => (acc.1 ++ [mkViewItem env p document], acc.2)

/-- `create_items_from_selection(content)`: group by asset id, fetch each
group's document, build a view item per found document, warn and skip per
missing one.  Returns the item list and the trace of `log.warning` calls.
(The early `return` on an empty hash coincides with folding the empty
list.) -/
def create_items_from_selection {α : Type} [Inhabited α] (env : Env α)
    (content : List α) : List (Item α) × List (LogWarning α) :=
  (create_asset_id_hash env.get_id content).foldl (cisStep env) ([], [])

/-- One iteration of the `get_all_assets` loop: skip `LookLoader`
containers, otherwise build view items from the container's members
(warnings are logged even when the item list comes back empty and the
`continue` skips the extend). -/
def gaaStep {α : Type} [Inhabited α] (env : Env α)
    (acc : List (Item α) × List (LogWarning α)) (container : Container) :
    List (Item α) × List (LogWarning α) :=
  if container.loader = "LookLoader" then acc
  else
    let content := env.set_members container.objectName
    let view_items := create_items_from_selection env content
    if view_items.1.isEmpty then (acc.1, acc.2 ++ view_items.2)
    else (acc.1 ++ view_items.1, acc.2 ++ view_items.2)

/-- `get_all_assets()`: view items for every non-`LookLoader` container's
members, concatenated, with the warning trace. -/
def get_all_assets {α : Type} [Inhabited α] (env : Env α) :
    List (Item α) × List (LogWarning α) :=
  env.containers.foldl (gaaStep env) ([], [])

/-- A queue entry as `process_queued_item` reads it: the node list
(`entry.get("nodes", [])`, a missing key giving `[]`) and the `"version"`
value, `none` rendering Python `None`. -/
structure QEntry (α : Type) where
  nodes : List α
  version : Option VersionDoc

/-- Outcome of `process_queued_item`: the `assert nodes` failure, the
`entry["version"]["_id"]` subscript failing on `None`, or the
`cblib.assign_look_by_version(nodes, version_id)` call that is made. -/
inductive PQResult (α : Type) where
  | assertionError : PQResult α
  | noneVersionError : PQResult α
  | assigned (nodes : List α) (version_id : DBId) : PQResult α
deriving DecidableEq

/-- `process_queued_item(entry)`: assert the node list is non-empty, then
invoke the assignment collaborator with the nodes and the version's id. -/
def process_queued_item {α : Type} (entry : QEntry α) : PQResult α :=
  if entry.nodes.isEmpty then PQResult.assertionError
  else
    match entry.version with
    | none => PQResult.noneVersionError
    | some v => PQResult.assigned entry.nodes v._id

/-- The per-item body of `create_queue_out_data`: deep-copy the item and
replace the document's `_id` and `parent` by their string forms. -/
def queue_out_one {α : Type} (item : Item α) : Item α :=
  { item with document :=
      { item.document with _id := strOf item.document._id
                           parent := strOf item.document.parent } }

/-- `create_queue_out_data(queue_items)`. -/
def create_queue_out_data {α : Type} (queue_items : List (Item α)) : List (Item α) :=
  queue_items.map queue_out_one

/-- The per-item body of `create_queue_in_data`: deep-copy the item and
replace the document's `_id` and `parent` by `io.ObjectId(...)` of them. -/
def queue_in_one {α : Type} (item : Item α) : Item α :=
  { item with document :=
      { item.document with _id := objectIdOf item.document._id
                           parent := objectIdOf item.document.parent } }

/-- `create_queue_in_data(queue_items)`. -/
def create_queue_in_data {α : Type} (queue_items : List (Item α)) : List (Item α) :=
  queue_items.map queue_in_one

/-- `json.dump` then `json.load` on one id field: a plain string survives
unchanged, an `ObjectId` is not JSON serializable (`TypeError`). -/
def json_roundtrip_id : DBId → Option DBId
  | .str s => some (.str s)
  | .oid _ => none

/-- JSON encode/decode of a version document inside a look record: its
`_id` and `parent` id fields must also be JSON serializable
(`json.dump` raises `TypeError` on an `ObjectId` wherever it sits). -/
def json_roundtrip_version (v : VersionDoc) : Option VersionDoc := do
  let i ← json_roundtrip_id v._id
  let p ← json_roundtrip_id v.parent
  some { v with _id := i, parent := p }

/-- JSON encode/decode of one look record: a null version passes through,
otherwise the version document itself must serialize. -/
def json_roundtrip_look (r : LookRecord) : Option LookRecord :=
  match r.version with
  | none => some r
  | some v => do
      let v' ← json_roundtrip_version v
      some { r with version := some v' }

/-- JSON encode/decode of one queue item: strings, lists and null survive,
while any remaining `ObjectId` — in the document's id fields or inside the
looks' version documents — makes `json.dump` raise `TypeError`. -/
def json_roundtrip_item {α : Type} (item : Item α) : Option (Item α) := do
  let i ← json_roundtrip_id item.document._id
  let p ← json_roundtrip_id item.document.parent
  let looks ← item.looks.mapM json_roundtrip_look
  some { item with document := { item.document with _id := i, parent := p }
                   looks := looks }

/-- JSON encode/decode of the whole queue array. -/
def json_roundtrip {α : Type} (items : List (Item α)) : Option (List (Item α)) :=
  items.mapM json_roundtrip_item

/-- `cmds.ls(members, type="objectSet")` for a look container: the member
shader sets of the container's object set. -/
def look_sets_of {α : Type} (env : Env α) (c : Container) : List α :=
  (env.set_members c.objectName).filter env.is_objectSet

/-- One iteration of the `remove_unused_looks` collection loop, with the
`for ... break ... else` rendered as: the container is unused exactly when
no member shader set has any contents. -/
def rulStep {α : Type} (env : Env α) (acc : List Container) (container : Container) :
    List Container :=
  if container.loader = "LookLoader" then
    if (look_sets_of env container).any (fun s => !(env.node_set_members s).isEmpty)
    then acc
    else acc ++ [container]
  else acc

/-- `remove_unused_looks()`: the containers handed to `api.remove`, in
order. -/
def remove_unused_looks {α : Type} (env : Env α) : List Container :=
  env.containers.foldl (rulStep env) []

/-- `list_descendents(nodes)`: the while-loop replacing the frontier by
`cmds.listRelatives(nodes, fullPath=True)` and accumulating it until it
comes back empty, as fuelled structural recursion (the loop itself carries
no bound; sufficiency of the fuel is a theorem). -/
def list_descendents {α : Type} [DecidableEq α] (children : α → List α) :
    Nat → List α → List α
  | 0, _ => []
  | fuel + 1, nodes =>
      let next := nodes.flatMap children
      if next = [] then []
      else next ++ list_descendents children fuel next

/-- The frontier after `k` child-expansions of the starting nodes. -/
def frontierIter {α : Type} (children : α → List α) : Nat → List α → List α
  | 0, s => s
  | k + 1, s => (frontierIter children k s).flatMap children

/-- `x` is a strict descendant of some starting node: reachable by one or
more child steps. -/
inductive IsDescendant {α : Type} (children : α → List α) (roots : List α) : α → Prop where
  | base {r c} : r ∈ roots → c ∈ children r → IsDescendant children roots c
  | step {y c} : IsDescendant children roots y → c ∈ children y →
      IsDescendant children roots c

/-! ### Lemmas about the asset-id hash -/

/-- A node contributes to key `k`: its id attribute resolves (non-null) and
the part before the first `:` equals `k`. -/
def matchesKey {α : Type} (get_id : α → Option String) (k : String) (n : α) : Bool :=
  decide ((get_id n).map idHead = some k)

lemma lookupHash_nil {α : Type} (k : String) :
    lookupHash k ([] : List (String × List α)) = none := rfl

lemma lookupHash_cons {α : Type} (k k' : String) (v : List α)
    (rest : List (String × List α)) :
    lookupHash k ((k', v) :: rest) = if k' = k then some v else lookupHash k rest := rfl

lemma insertHash_nil {α : Type} (key : String) (n : α) :
    insertHash ([] : List (String × List α)) key n = [(key, [n])] := rfl

lemma insertHash_cons {α : Type} (k' : String) (v : List α)
    (rest : List (String × List α)) (key : String) (n : α) :
    insertHash ((k', v) :: rest) key n =
      if k' = key then (k', v ++ [n]) :: rest
      else (k', v) :: insertHash rest key n := rfl

lemma lookupHash_insertHash {α : Type} (h : List (String × List α)) (key k : String)
    (n : α) :
    lookupHash k (insertHash h key n) =
      if key = k then some (((lookupHash k h).getD []) ++ [n]) else lookupHash k h := by
  induction h with
  | nil =>
      by_cases hk : key = k <;>
        simp [insertHash_nil, lookupHash_cons, lookupHash_nil, hk]
  | cons hd rest ih =>
      obtain ⟨k', v⟩ := hd
      rw [insertHash_cons]
      by_cases h1 : k' = key
      · subst h1
        rw [if_pos rfl]
        by_cases h2 : k' = k <;> simp [lookupHash_cons, h2]
      · rw [if_neg h1]
        by_cases h2 : k' = k
        · subst h2
          have h3 : ¬ k' = k' → False := fun hh => hh rfl
          have h4 : ¬ key = k' := fun hh => h1 hh.symm
          simp [lookupHash_cons, h4]
        · simp [lookupHash_cons, h2, ih]

lemma lookupHash_foldl {α : Type} [DecidableEq α] (g : α → Option String) (k : String)
    (nodes : List α) (h₀ : List (String × List α)) :
    lookupHash k (nodes.foldl (hashStep g) h₀) =
      match lookupHash k h₀ with
      | some l => some (l ++ nodes.filter (matchesKey g k))
      | none =>
          if nodes.filter (matchesKey g k) = [] then none
          else some (nodes.filter (matchesKey g k)) := by
  induction nodes generalizing h₀ with
  | nil => cases hl : lookupHash k h₀ <;> simp [hl]
  | cons n ns ih =>
      rw [List.foldl_cons]
      cases hg : g n with
      | none =>
          have hm : matchesKey g k n = false := by simp [matchesKey, hg]
          rw [show hashStep g h₀ n = h₀ from by simp [hashStep, hg], ih]
          cases hl : lookupHash k h₀ <;> simp [hl, List.filter_cons, hm]
      | some v =>
          rw [show hashStep g h₀ n = insertHash h₀ (idHead v) n from by
                simp [hashStep, hg],
              ih, lookupHash_insertHash]
          by_cases hv : idHead v = k
          · have hm : matchesKey g k n = true := by simp [matchesKey, hg, hv]
            rw [if_pos hv]
            cases hl : lookupHash k h₀ <;> simp [hl, List.filter_cons, hm]
          · have hm : matchesKey g k n = false := by simp [matchesKey, hg, hv]
            rw [if_neg hv]
            cases hl : lookupHash k h₀ <;> simp [hl, List.filter_cons, hm]

lemma insertHash_values_ne_nil {α : Type} (h : List (String × List α)) (key : String)
    (n : α) (hh : ∀ p ∈ h, p.2 ≠ []) :
    ∀ p ∈ insertHash h key n, p.2 ≠ [] := by
  induction h with
  | nil =>
      intro p hp
      rw [insertHash_nil] at hp
      rcases List.mem_cons.mp hp with hp1 | hp1
      · subst hp1; simp
      · simp at hp1
  | cons hd rest ih =>
      obtain ⟨k', v⟩ := hd
      intro p hp
      rw [insertHash_cons] at hp
      by_cases h1 : k' = key
      · rw [if_pos h1] at hp
        rcases List.mem_cons.mp hp with hp1 | hp1
        · subst hp1; simp
        · exact hh p (List.mem_cons_of_mem _ hp1)
      · rw [if_neg h1] at hp
        rcases List.mem_cons.mp hp with hp1 | hp1
        · subst hp1; exact hh _ (List.mem_cons_self _ _)
        · exact ih (fun q hq => hh q (List.mem_cons_of_mem _ hq)) p hp1

lemma create_asset_id_hash_values_ne_nil {α : Type} (g : α → Option String)
    (nodes : List α) :
    ∀ p ∈ create_asset_id_hash g nodes, p.2 ≠ [] := by
  unfold create_asset_id_hash
  have main : ∀ (ns : List α) (h₀ : List (String × List α)),
      (∀ p ∈ h₀, p.2 ≠ []) → ∀ p ∈ ns.foldl (hashStep g) h₀, p.2 ≠ [] := by
    intro ns
    induction ns with
    | nil => intro h₀ hh; simpa using hh
    | cons n rest ih =>
        intro h₀ hh
        rw [List.foldl_cons]
        apply ih
        cases hg : g n with
        | none => simpa [hashStep, hg] using hh
        | some v =>
            simp only [hashStep, hg]
            exact insertHash_values_ne_nil h₀ (idHead v) n hh
  exact main nodes [] (by simp)

/-- C1: `create_asset_id_hash` has a key `k` exactly when some node's id
attribute resolves to a non-null value whose part before the first `:` is
`k`, and the node list stored under `k` is precisely the input nodes with
that property, in first-seen (input) order. -/
theorem create_asset_id_hash_spec {α : Type} [DecidableEq α] (get_id : α → Option String)
    (nodes : List α) (k : String) (l : List α) :
    lookupHash k (create_asset_id_hash get_id nodes) = some l ↔
      (l = nodes.filter (matchesKey get_id k) ∧ l ≠ []) := by
  unfold create_asset_id_hash
  rw [lookupHash_foldl]
  show (if nodes.filter (matchesKey get_id k) = [] then none
        else some (nodes.filter (matchesKey get_id k))) = some l ↔ _
  by_cases hf : nodes.filter (matchesKey get_id k) = []
  · rw [if_pos hf]
    constructor
    · intro h; exact Option.noConfusion h
    · rintro ⟨h1, h2⟩; rw [hf] at h1; exact absurd h1 h2
  · rw [if_neg hf]
    constructor
    · intro h
      injection h with h
      subst h
      exact ⟨rfl, hf⟩
    · rintro ⟨h1, _⟩; rw [h1]

/-! ### Lemmas about the latest-version query and `fetch_looks` -/

lemma pickStep_some (acc : Option VersionDoc) (v : VersionDoc) :
    ∃ w, pickStep acc v = some w ∧ (acc = some w ∨ w = v) ∧
      (∀ b, acc = some b → b.name ≤ w.name) ∧ v.name ≤ w.name := by
  cases acc with
  | none => exact ⟨v, rfl, Or.inr rfl, by simp, le_refl _⟩
  | some b =>
      by_cases h : b.name < v.name
      · refine ⟨v, by simp [pickStep, h], Or.inr rfl, ?_, le_refl _⟩
        intro c hc; injection hc with hc; subst hc; exact le_of_lt h
      · refine ⟨b, by simp [pickStep, h], Or.inl rfl, ?_, le_of_not_lt h⟩
        intro c hc; injection hc with hc; subst hc; exact le_refl _

lemma foldl_pickStep_none_iff (l : List VersionDoc) :
    ∀ acc, l.foldl pickStep acc = none ↔ acc = none ∧ l = [] := by
  induction l with
  | nil => intro acc; simp
  | cons v vs ih =>
      intro acc
      rw [List.foldl_cons, ih]
      obtain ⟨u, hu, -⟩ := pickStep_some acc v
      simp [hu]

lemma foldl_pickStep_spec (l : List VersionDoc) (acc : Option VersionDoc)
    (w : VersionDoc) (h : l.foldl pickStep acc = some w) :
    (acc = some w ∨ w ∈ l) ∧ (∀ v ∈ l, v.name ≤ w.name) ∧
      (∀ b, acc = some b → b.name ≤ w.name) := by
  induction l generalizing acc with
  | nil =>
      rw [List.foldl_nil] at h
      refine ⟨Or.inl h, by simp, ?_⟩
      intro b hb; rw [h] at hb; injection hb with hb; subst hb; exact le_refl _
  | cons v vs ih =>
      rw [List.foldl_cons] at h
      obtain ⟨h1, h2, h3⟩ := ih _ h
      obtain ⟨u, hu_eq, hu_or, hu_acc, hu_v⟩ := pickStep_some acc v
      have huw : u.name ≤ w.name := h3 u hu_eq
      constructor
      · rcases h1 with h1 | h1
        · rw [hu_eq] at h1; injection h1 with h1; subst h1
          rcases hu_or with h4 | h4
          · exact Or.inl h4
          · exact Or.inr (h4 ▸ List.mem_cons_self _ _)
        · exact Or.inr (List.mem_cons_of_mem _ h1)
      constructor
      · intro x hx
        rcases List.mem_cons.mp hx with hx1 | hx1
        · subst hx1; exact le_trans hu_v huw
        · exact h2 x hx1
      · intro b hb
        exact le_trans (hu_acc b hb) huw

lemma find_one_version_none_iff (versions : List VersionDoc) (parent : DBId) :
    find_one_version versions parent = none ↔
      ∀ v ∈ versions, ¬ (v.vtype = "version" ∧ v.parent = parent) := by
  unfold find_one_version
  rw [foldl_pickStep_none_iff]
  simp [List.filter_eq_nil_iff]

lemma find_one_version_some (versions : List VersionDoc) (parent : DBId)
    (w : VersionDoc) (h : find_one_version versions parent = some w) :
    w ∈ versions ∧ w.vtype = "version" ∧ w.parent = parent ∧
      ∀ v ∈ versions, v.vtype = "version" → v.parent = parent →
        v.name ≤ w.name := by
  unfold find_one_version at h
  obtain ⟨h1, h2, -⟩ := foldl_pickStep_spec _ _ _ h
  rcases h1 with h1 | h1
  · exact Option.noConfusion h1
  · obtain ⟨hmem, hcond⟩ := List.mem_filter.mp h1
    have hc := of_decide_eq_true hcond
    refine ⟨hmem, hc.1, hc.2, ?_⟩
    intro v hv h3 h4
    exact h2 v (List.mem_filter.mpr ⟨hv, by simp [h3, h4]⟩)

/-- C2: `fetch_looks` returns exactly one record per look subset of the
asset (pointwise along `cblib.list_looks`), each record carrying the
asset's name and the subset's name, with a version that is `none` exactly
when no version document of that subset exists, and otherwise a version
document of that subset of maximal name (descending name sort, first
match). -/
theorem fetch_looks_spec {α : Type} (env : Env α) (asset : Document) :
    List.Forall₂ (fun (r : LookRecord) (s : Subset) =>
        r.asset_name = asset.name ∧ r.subset = s.name ∧
        (r.version = none ↔
          ∀ v ∈ env.versions, ¬ (v.vtype = "version" ∧ v.parent = s._id)) ∧
        (∀ w, r.version = some w →
          w ∈ env.versions ∧ w.vtype = "version" ∧ w.parent = s._id ∧
          ∀ v ∈ env.versions, v.vtype = "version" → v.parent = s._id →
            v.name ≤ w.name))
      (fetch_looks env asset) (env.list_looks asset._id) := by
  unfold fetch_looks
  rw [List.forall₂_map_left_iff]
  apply List.forall₂_same.mpr
  intro s _
  refine ⟨rfl, rfl, ?_, ?_⟩
  · exact find_one_version_none_iff env.versions s._id
  · intro w hw
    exact find_one_version_some env.versions s._id w hw

/-! ### Characterization of `create_items_from_selection` -/

/-- The groups of the asset-id hash whose asset document is found. -/
def cis_found {α : Type} (env : Env α) (hash : List (String × List α)) :
    List (String × List α) :=
  hash.filter (fun p => (env.find_asset p.1).isSome)

/-- The groups of the asset-id hash with no matching asset document. -/
def cis_missing {α : Type} (env : Env α) (hash : List (String × List α)) :
    List (String × List α) :=
  hash.filter (fun p => (env.find_asset p.1).isNone)

lemma cis_foldl {α : Type} [Inhabited α] (env : Env α)
    (hash : List (String × List α)) (acc : List (Item α) × List (LogWarning α)) :
    hash.foldl (cisStep env) acc =
      (acc.1 ++ (cis_found env hash).map
          (fun p => mkViewItem env p ((env.find_asset p.1).getD default)),
       acc.2 ++ (cis_missing env hash).flatMap
          (fun p => [LogWarning.idNotFound p.1, LogWarning.nodesList p.2])) := by
  induction hash generalizing acc with
  | nil => simp [cis_found, cis_missing]
  | cons p ps ih =>
      rw [List.foldl_cons]
      cases hf : env.find_asset p.1 with
      | none =>
          rw [show cisStep env acc p =
                (acc.1, acc.2 ++ [LogWarning.idNotFound p.1, LogWarning.nodesList p.2])
              from by simp [cisStep, hf], ih]
          simp [cis_found, cis_missing, List.filter_cons, hf]
      | some d =>
          rw [show cisStep env acc p = (acc.1 ++ [mkViewItem env p d], acc.2)
              from by simp [cisStep, hf], ih]
          simp [cis_found, cis_missing, List.filter_cons, hf]

lemma create_items_eq {α : Type} [Inhabited α] (env : Env α) (content : List α) :
    create_items_from_selection env content =
      ((cis_found env (create_asset_id_hash env.get_id content)).map
          (fun p => mkViewItem env p ((env.find_asset p.1).getD default)),
       (cis_missing env (create_asset_id_hash env.get_id content)).flatMap
          (fun p => [LogWarning.idNotFound p.1, LogWarning.nodesList p.2])) := by
  unfold create_items_from_selection
  rw [cis_foldl]
  simp

lemma length_warn_flatMap {α : Type} (l : List (String × List α)) :
    (l.flatMap (fun p =>
      [LogWarning.idNotFound (α := α) p.1, LogWarning.nodesList p.2])).length =
      2 * l.length := by
  induction l with
  | nil => simp
  | cons p ps ih => simp [ih]; ring

/-- C4 (amended): on an input spanning exactly two asset ids with matching
documents and one with none, `create_items_from_selection` returns exactly
two view items and makes exactly two `log.warning` calls (one naming the
missing id, one listing its nodes); the bad id does not abort the batch. -/
theorem create_items_two_known_one_unknown {α : Type} [Inhabited α] (env : Env α)
    (content : List α)
    (hfound : (cis_found env (create_asset_id_hash env.get_id content)).length = 2)
    (hmiss : (cis_missing env (create_asset_id_hash env.get_id content)).length = 1) :
    (create_items_from_selection env content).1.length = 2 ∧
    (create_items_from_selection env content).2.length = 2 := by
  rw [create_items_eq]
  constructor
  · simpa using hfound
  · show (List.flatMap _ _).length = 2
    rw [length_warn_flatMap, hmiss]

/-- C10: every view item returned by `create_items_from_selection` has a
non-empty node list (a hash key exists only when some node carries that
asset id), so such items always pass `process_queued_item`'s non-empty
node-list assertion, whatever the entry's version value. -/
theorem create_items_nodes_nonempty {α : Type} [Inhabited α] (env : Env α)
    (content : List α) (item : Item α)
    (hmem : item ∈ (create_items_from_selection env content).1) :
    item.nodes ≠ [] ∧
    ∀ ver, process_queued_item (QEntry.mk item.nodes ver) ≠
      (PQResult.assertionError : PQResult α) := by
  rw [create_items_eq] at hmem
  simp only [List.mem_map] at hmem
  obtain ⟨p, hp, hitem⟩ := hmem
  have hp' : p ∈ create_asset_id_hash env.get_id content :=
    List.mem_of_mem_filter hp
  have hnodes : p.2 ≠ [] :=
    create_asset_id_hash_values_ne_nil env.get_id content p hp'
  have hin : item.nodes = p.2 := by rw [← hitem]; rfl
  have hne : item.nodes ≠ [] := by rw [hin]; exact hnodes
  refine ⟨hne, ?_⟩
  intro ver
  have hie : item.nodes.isEmpty = false := by
    cases hxs : item.nodes with
    | nil => exact absurd hxs hne
    | cons a as => rfl
  unfold process_queued_item
  simp only [hie]
  cases ver <;> simp

/-! ### `get_all_assets` -/

lemma gaa_foldl_items {α : Type} [Inhabited α] (env : Env α) (l : List Container)
    (acc : List (Item α) × List (LogWarning α)) :
    (l.foldl (gaaStep env) acc).1 =
      acc.1 ++ (l.filter (fun c => !decide (c.loader = "LookLoader"))).flatMap
        (fun c => (create_items_from_selection env (env.set_members c.objectName)).1) := by
  induction l generalizing acc with
  | nil => simp
  | cons d ds ih =>
      rw [List.foldl_cons, ih]
      by_cases h1 : d.loader = "LookLoader"
      · rw [show gaaStep env acc d = acc from by simp [gaaStep, h1]]
        simp [List.filter_cons, h1]
      · by_cases h2 :
          (create_items_from_selection env (env.set_members d.objectName)).1.isEmpty
        · rw [show gaaStep env acc d =
                (acc.1, acc.2 ++ (create_items_from_selection env
                  (env.set_members d.objectName)).2)
              from by simp [gaaStep, h1, h2]]
          have h2' : (create_items_from_selection env (env.set_members d.objectName)).1
              = [] := by simpa [List.isEmpty_iff] using h2
          simp [List.filter_cons, h1, h2']
        · rw [show gaaStep env acc d =
                (acc.1 ++ (create_items_from_selection env
                   (env.set_members d.objectName)).1,
                 acc.2 ++ (create_items_from_selection env
                   (env.set_members d.objectName)).2)
              from by simp [gaaStep, h1, h2]]
          simp [List.filter_cons, h1]

/-- C9: `get_all_assets` builds its items exclusively from the containers
whose loader is not `"LookLoader"`: the result is the concatenation, in
container order, of the view items of each remaining container's member
nodes, so a `LookLoader` container contributes nothing. -/
theorem get_all_assets_spec {α : Type} [Inhabited α] (env : Env α) :
    (get_all_assets env).1 =
      (env.containers.filter (fun c => !decide (c.loader = "LookLoader"))).flatMap
        (fun c => (create_items_from_selection env (env.set_members c.objectName)).1) := by
  unfold get_all_assets
  rw [gaa_foldl_items]
  simp

/-! ### Queue (de)serialization -/

lemma json_roundtrip_id_eq_self (d : DBId) (h : d.isOid = false) :
    json_roundtrip_id d = some d := by
  cases d with
  | oid s => simp [DBId.isOid] at h
  | str s => rfl

lemma json_roundtrip_look_eq_self (r : LookRecord)
    (h : ∀ v, r.version = some v → v._id.isOid = false ∧ v.parent.isOid = false) :
    json_roundtrip_look r = some r := by
  cases hv : r.version with
  | none => simp [json_roundtrip_look, hv]
  | some v =>
      obtain ⟨h1, h2⟩ := h v hv
      obtain ⟨i, t, p, n⟩ := v
      simp [json_roundtrip_look, hv, json_roundtrip_version,
            json_roundtrip_id_eq_self _ h1, json_roundtrip_id_eq_self _ h2]
      obtain ⟨ra, rs, rv⟩ := r
      simp_all

lemma mapM_json_roundtrip_look_self (looks : List LookRecord)
    (h : ∀ r ∈ looks, ∀ v, r.version = some v →
      v._id.isOid = false ∧ v.parent.isOid = false) :
    looks.mapM json_roundtrip_look = some looks := by
  induction looks with
  | nil => rfl
  | cons r rs ih =>
      rw [List.mapM_cons, json_roundtrip_look_eq_self r (h r (List.mem_cons_self _ _)),
          ih (fun q hq => h q (List.mem_cons_of_mem _ hq))]
      rfl

lemma json_roundtrip_out_one {α : Type} (item : Item α)
    (hlooks : ∀ r ∈ item.looks, ∀ v, r.version = some v →
      v._id.isOid = false ∧ v.parent.isOid = false) :
    json_roundtrip_item (queue_out_one item) = some (queue_out_one item) := by
  have hl : item.looks.mapM json_roundtrip_look = some item.looks :=
    mapM_json_roundtrip_look_self item.looks hlooks
  show (item.looks.mapM json_roundtrip_look).bind
      (fun looks => some { queue_out_one item with looks := looks }) =
    some (queue_out_one item)
  rw [hl]
  rfl

lemma json_roundtrip_out {α : Type} (items : List (Item α)) :
    (∀ item ∈ items, ∀ r ∈ item.looks, ∀ v, r.version = some v →
      v._id.isOid = false ∧ v.parent.isOid = false) →
    json_roundtrip (create_queue_out_data items) = some (create_queue_out_data items) := by
  unfold json_roundtrip create_queue_out_data
  induction items with
  | nil => intro _; rfl
  | cons i is ih =>
      intro h
      rw [List.map_cons, List.mapM_cons,
          json_roundtrip_out_one i (h i (List.mem_cons_self _ _)),
          ih (fun q hq => h q (List.mem_cons_of_mem _ hq))]
      rfl

lemma queue_in_out_id (d : DBId) (h : d.isOid = true) : objectIdOf (strOf d) = d := by
  cases d with
  | oid s => rfl
  | str s => simp [DBId.isOid] at h

/-- C3 (amended): for queue items whose document `_id` and `parent` are
`ObjectId` values and whose look records carry no `ObjectId` values (their
version is null or its id fields are already plain strings),
`create_queue_out_data`, then a JSON encode/decode, then
`create_queue_in_data` reproduces both document fields as the original
`ObjectId` values (round-trip law).  Without the restriction on the looks
the JSON encode itself fails, since `create_queue_out_data` stringifies
only the document's two id fields. -/
theorem queue_roundtrip {α : Type} (items : List (Item α))
    (h : ∀ item ∈ items, item.document._id.isOid = true ∧
      item.document.parent.isOid = true)
    (hlooks : ∀ item ∈ items, ∀ r ∈ item.looks, ∀ v, r.version = some v →
      v._id.isOid = false ∧ v.parent.isOid = false) :
    ∃ mid, json_roundtrip (create_queue_out_data items) = some mid ∧
      List.Forall₂ (fun a b =>
          a.document._id = b.document._id ∧ a.document.parent = b.document.parent)
        (create_queue_in_data mid) items := by
  refine ⟨create_queue_out_data items, json_roundtrip_out items hlooks, ?_⟩
  unfold create_queue_in_data create_queue_out_data
  rw [List.map_map, List.forall₂_map_left_iff]
  apply List.forall₂_same.mpr
  intro item hmem
  obtain ⟨h1, h2⟩ := h item hmem
  constructor
  · show (queue_in_one (queue_out_one item)).document._id = item.document._id
    show objectIdOf (strOf item.document._id) = item.document._id
    exact queue_in_out_id _ h1
  · show (queue_in_one (queue_out_one item)).document.parent = item.document.parent
    show objectIdOf (strOf item.document.parent) = item.document.parent
    exact queue_in_out_id _ h2

/-- C8: `create_queue_out_data` and `create_queue_in_data` are pure
per-item rewrites (each output item is built from a deep copy, the inputs
are not mutated), and every field of each returned item other than the
document's `_id` and `parent` equals the corresponding input field. -/
theorem queue_data_frame {α : Type} (items : List (Item α)) :
    List.Forall₂ (fun a b =>
        a.asset = b.asset ∧ a.asset_name = b.asset_name ∧ a.looks = b.looks ∧
        a._id = b._id ∧ a.nodes = b.nodes ∧ a.document.name = b.document.name)
      (create_queue_out_data items) items ∧
    List.Forall₂ (fun a b =>
        a.asset = b.asset ∧ a.asset_name = b.asset_name ∧ a.looks = b.looks ∧
        a._id = b._id ∧ a.nodes = b.nodes ∧ a.document.name = b.document.name)
      (create_queue_in_data items) items := by
  constructor
  · unfold create_queue_out_data
    rw [List.forall₂_map_left_iff]
    apply List.forall₂_same.mpr
    intro item _
    exact ⟨rfl, rfl, rfl, rfl, rfl, rfl⟩
  · unfold create_queue_in_data
    rw [List.forall₂_map_left_iff]
    apply List.forall₂_same.mpr
    intro item _
    exact ⟨rfl, rfl, rfl, rfl, rfl, rfl⟩

/-! ### Assignment execution -/

/-- C5: a queue entry whose node list is empty (or whose `"nodes"` key is
absent, which reads as the empty list) makes `process_queued_item` fail at
the `assert` immediately: the look-assignment collaborator is never
invoked for it. -/
theorem process_queued_item_empty_nodes {α : Type} (entry : QEntry α)
    (h : entry.nodes = []) :
    process_queued_item entry = PQResult.assertionError ∧
    ∀ ns vid, process_queued_item entry ≠ PQResult.assigned ns vid := by
  have hie : entry.nodes.isEmpty = true := by rw [h]; rfl
  constructor
  · simp [process_queued_item, hie]
  · intro ns vid
    simp [process_queued_item, hie]

/-! ### Unused-look cleanup -/

lemma rul_foldl_mem {α : Type} (env : Env α) (l : List Container)
    (acc : List Container) (c : Container) :
    c ∈ l.foldl (rulStep env) acc ↔
      c ∈ acc ∨ (c ∈ l ∧ c.loader = "LookLoader" ∧
        ∀ s ∈ look_sets_of env c, env.node_set_members s = []) := by
  induction l generalizing acc with
  | nil => simp
  | cons d ds ih =>
      rw [List.foldl_cons, ih]
      by_cases h1 : d.loader = "LookLoader"
      · by_cases h2 : (look_sets_of env d).any
            (fun s => !(env.node_set_members s).isEmpty)
        · rw [show rulStep env acc d = acc from by simp [rulStep, h1, h2]]
          have hnq : ¬ ∀ s ∈ look_sets_of env d, env.node_set_members s = [] := by
            intro hall
            obtain ⟨s, hs, hsne⟩ := List.any_eq_true.mp h2
            rw [hall s hs] at hsne
            simp at hsne
          constructor
          · rintro (h | ⟨hds, hP⟩)
            · exact Or.inl h
            · exact Or.inr ⟨List.mem_cons_of_mem _ hds, hP⟩
          · rintro (h | ⟨hmem, hP⟩)
            · exact Or.inl h
            · rcases List.mem_cons.mp hmem with he | hds
              · subst he; exact absurd hP.2 hnq
              · exact Or.inr ⟨hds, hP⟩
        · rw [show rulStep env acc d = acc ++ [d] from by simp [rulStep, h1, h2]]
          have hq : ∀ s ∈ look_sets_of env d, env.node_set_members s = [] := by
            intro s hs
            by_contra hne
            exact h2 (List.any_eq_true.mpr ⟨s, hs, by simp [hne]⟩)
          constructor
          · rintro (h | ⟨hds, hP⟩)
            · rcases List.mem_append.mp h with h | h
              · exact Or.inl h
              · have he : c = d := by simpa using h
                subst he
                exact Or.inr ⟨List.mem_cons_self _ _, h1, hq⟩
            · exact Or.inr ⟨List.mem_cons_of_mem _ hds, hP⟩
          · rintro (h | ⟨hmem, hP⟩)
            · exact Or.inl (List.mem_append.mpr (Or.inl h))
            · rcases List.mem_cons.mp hmem with he | hds
              · subst he
                exact Or.inl (List.mem_append.mpr (Or.inr (by simp)))
              · exact Or.inr ⟨hds, hP⟩
      · rw [show rulStep env acc d = acc from by simp [rulStep, h1]]
        constructor
        · rintro (h | ⟨hds, hP⟩)
          · exact Or.inl h
          · exact Or.inr ⟨List.mem_cons_of_mem _ hds, hP⟩
        · rintro (h | ⟨hmem, hP⟩)
          · exact Or.inl h
          · rcases List.mem_cons.mp hmem with he | hds
            · subst he; exact absurd hP.1 h1
            · exact Or.inr ⟨hds, hP⟩

/-- C6: `remove_unused_looks` removes exactly the loaded `"LookLoader"`
containers all of whose member shader sets are empty; a look container
with at least one non-empty member set is kept, and containers with any
other loader are never removed. -/
theorem remove_unused_looks_spec {α : Type} (env : Env α) (c : Container) :
    c ∈ remove_unused_looks env ↔
      c ∈ env.containers ∧ c.loader = "LookLoader" ∧
      ∀ s ∈ look_sets_of env c, env.node_set_members s = [] := by
  unfold remove_unused_looks
  rw [rul_foldl_mem]
  simp

/-! ### Descendant expansion -/

lemma frontierIter_comm {α : Type} (children : α → List α) (k : Nat) (s : List α) :
    frontierIter children k (s.flatMap children) =
      (frontierIter children k s).flatMap children := by
  induction k generalizing s with
  | zero => rfl
  | succ k ih => simp [frontierIter, ih]

lemma frontierIter_succ_eq {α : Type} (children : α → List α) (k : Nat) (s : List α) :
    frontierIter children (k + 1) s = frontierIter children k (s.flatMap children) := by
  rw [frontierIter, frontierIter_comm]

lemma frontierIter_nil {α : Type} (children : α → List α) (k : Nat) :
    frontierIter children k ([] : List α) = [] := by
  induction k with
  | zero => rfl
  | succ k ih => simp [frontierIter, ih]

lemma frontierIter_empty_add {α : Type} (children : α → List α) (s : List α) (f : Nat)
    (hf : frontierIter children f s = []) :
    ∀ m, frontierIter children (f + m) s = [] := by
  intro m
  induction m with
  | zero => simpa using hf
  | succ i ih =>
      show frontierIter children ((f + i) + 1) s = []
      rw [frontierIter, ih]
      rfl

lemma mem_list_descendents_iff {α : Type} [DecidableEq α] (children : α → List α)
    (fuel : Nat) (start : List α) (x : α) :
    x ∈ list_descendents children fuel start ↔
      ∃ k, 1 ≤ k ∧ k ≤ fuel ∧ x ∈ frontierIter children k start := by
  induction fuel generalizing start with
  | zero =>
      constructor
      · intro h; exact absurd h (List.not_mem_nil x)
      · rintro ⟨k, hk1, hk2, -⟩; omega
  | succ f ih =>
      rw [list_descendents]
      by_cases hn : start.flatMap children = []
      · rw [if_pos hn]
        constructor
        · intro h; exact absurd h (List.not_mem_nil x)
        · rintro ⟨k, hk1, -, hkm⟩
          rcases Nat.exists_eq_add_of_le hk1 with ⟨j, hj⟩
          rw [hj, show 1 + j = j + 1 from by omega, frontierIter_succ_eq, hn,
              frontierIter_nil] at hkm
          exact absurd hkm (List.not_mem_nil x)
      · rw [if_neg hn, List.mem_append, ih]
        constructor
        · rintro (hx | ⟨k, hk1, hk2, hkm⟩)
          · exact ⟨1, le_refl 1, by omega, by
              rw [show (1 : Nat) = 0 + 1 from rfl, frontierIter_succ_eq]
              exact hx⟩
          · refine ⟨k + 1, by omega, by omega, ?_⟩
            rw [frontierIter_succ_eq]
            exact hkm
        · rintro ⟨k, hk1, hk2, hkm⟩
          cases k with
          | zero => omega
          | succ j =>
              rw [frontierIter_succ_eq] at hkm
              cases j with
              | zero => exact Or.inl hkm
              | succ i => exact Or.inr ⟨i + 1, by omega, by omega, hkm⟩

lemma mem_frontierIter_descendant {α : Type} (children : α → List α) (start : List α) :
    ∀ k x, x ∈ frontierIter children (k + 1) start → IsDescendant children start x := by
  intro k
  induction k with
  | zero =>
      intro x hx
      rw [frontierIter] at hx
      rcases List.mem_flatMap.mp hx with ⟨y, hy, hxy⟩
      exact IsDescendant.base hy hxy
  | succ j ih =>
      intro x hx
      rw [frontierIter] at hx
      rcases List.mem_flatMap.mp hx with ⟨y, hy, hxy⟩
      exact IsDescendant.step (ih y hy) hxy

lemma descendant_mem_frontierIter {α : Type} (children : α → List α) (start : List α)
    (x : α) (h : IsDescendant children start x) :
    ∃ k, x ∈ frontierIter children (k + 1) start := by
  induction h with
  | base hr hc => exact ⟨0, List.mem_flatMap.mpr ⟨_, hr, hc⟩⟩
  | step hy hc ih =>
      obtain ⟨k, hk⟩ := ih
      exact ⟨k + 1, List.mem_flatMap.mpr ⟨_, hk, hc⟩⟩

lemma frontierIter_depth {α : Type} (children : α → List α) (depth : α → Nat)
    (hdec : ∀ y, ∀ c ∈ children y, depth c < depth y) (start : List α) :
    ∀ k x, x ∈ frontierIter children k start → ∃ r ∈ start, depth x + k ≤ depth r := by
  intro k
  induction k with
  | zero =>
      intro x hx
      exact ⟨x, hx, by omega⟩
  | succ j ih =>
      intro x hx
      rw [frontierIter] at hx
      rcases List.mem_flatMap.mp hx with ⟨y, hy, hxy⟩
      obtain ⟨r, hr, hle⟩ := ih y hy
      have hlt := hdec y x hxy
      exact ⟨r, hr, by omega⟩

lemma frontierIter_empty_of_bound {α : Type} (children : α → List α) (depth : α → Nat)
    (B : Nat) (hdec : ∀ y, ∀ c ∈ children y, depth c < depth y) (start : List α)
    (hbound : ∀ r ∈ start, depth r ≤ B) :
    frontierIter children (B + 1) start = [] := by
  by_contra h
  obtain ⟨x, hx⟩ := List.exists_mem_of_ne_nil _ h
  obtain ⟨r, hr, hle⟩ := frontierIter_depth children depth hdec start (B + 1) x hx
  have := hbound r hr
  omega

lemma list_descendents_stable {α : Type} [DecidableEq α] (children : α → List α) :
    ∀ (f : Nat) (s : List α), frontierIter children f s = [] →
      ∀ g, f ≤ g → list_descendents children g s = list_descendents children f s := by
  intro f
  induction f with
  | zero =>
      intro s hs g hg
      have hs' : s = [] := hs
      subst hs'
      cases g with
      | zero => rfl
      | succ h =>
          rw [list_descendents]
          simp [list_descendents]
  | succ k ih =>
      intro s hs g hg
      rcases Nat.exists_eq_add_of_le hg with ⟨m, rfl⟩
      rw [show k + 1 + m = (k + m) + 1 from by omega]
      rw [list_descendents, list_descendents]
      rw [frontierIter_succ_eq] at hs
      by_cases hn : s.flatMap children = []
      · rw [if_pos hn, if_pos hn]
      · rw [if_neg hn, if_neg hn, ih (s.flatMap children) hs (k + m) (by omega)]

/-- C7: whenever the child relation admits a strictly decreasing depth
measure (in particular, for every finite acyclic scene hierarchy) with the
starting nodes of depth at most `B`, the iterative frontier expansion of
`list_descendents` terminates — any fuel of at least `B + 1` yields the
same result — and its result contains exactly the strict descendants of
the starting nodes. -/
theorem list_descendents_correct {α : Type} [DecidableEq α] (children : α → List α)
    (depth : α → Nat) (B : Nat) (start : List α) (fuel : Nat)
    (hdec : ∀ y, ∀ c ∈ children y, depth c < depth y)
    (hbound : ∀ r ∈ start, depth r ≤ B)
    (hfuel : B + 1 ≤ fuel) :
    list_descendents children fuel start = list_descendents children (B + 1) start ∧
    ∀ x, x ∈ list_descendents children fuel start ↔ IsDescendant children start x := by
  have hempty := frontierIter_empty_of_bound children depth B hdec start hbound
  constructor
  · exact list_descendents_stable children (B + 1) start hempty fuel hfuel
  · intro x
    rw [mem_list_descendents_iff]
    constructor
    · rintro ⟨k, hk1, -, hkm⟩
      cases k with
      | zero => omega
      | succ j => exact mem_frontierIter_descendant children start j x hkm
    · intro h
      obtain ⟨k, hk⟩ := descendant_mem_frontierIter children start x h
      by_cases hk2 : k + 1 ≤ fuel
      · exact ⟨k + 1, by omega, hk2, hk⟩
      · exfalso
        have hge : B + 1 ≤ k + 1 := by omega
        rcases Nat.exists_eq_add_of_le hge with ⟨m, hm⟩
        rw [hm, frontierIter_empty_add children start (B + 1) hempty m] at hk
        exact List.not_mem_nil x hk

/-! ### Concrete instances: counterexample and witnesses -/

/-- Asset document for the id `"aaa"` in the sample database. -/
def cexDocA : Document := ⟨DBId.oid "aaa", DBId.oid "p1", "Hero"⟩

/-- Asset document for the id `"bbb"` in the sample database. -/
def cexDocB : Document := ⟨DBId.oid "bbb", DBId.oid "p2", "Tree"⟩

/-- A sample scene/database: four nodes spanning the known asset ids
`"aaa"` (two nodes) and `"bbb"` (one node) plus the unknown id `"ccc"`
(one node). -/
def cexEnv : Env String :=
  { get_id := fun n =>
      if n = "n1" then some "aaa:v1"
      else if n = "n2" then some "aaa:v1"
      else if n = "n3" then some "bbb:v1"
      else if n = "n4" then some "ccc:v1"
      else none
    find_asset := fun i =>
      if i = "aaa" then some cexDocA
      else if i = "bbb" then some cexDocB
      else none
    namespace_of := fun _ => "ns"
    list_looks := fun _ => []
    versions := []
    containers := []
    set_members := fun _ => []
    is_objectSet := fun _ => false
    node_set_members := fun _ => [] }

/-- The selection content for the sample scene. -/
def cexContent : List String := ["n1", "n2", "n3", "n4"]

/-- C4 counterexample: on nodes spanning exactly two known asset ids and
one unknown id, `create_items_from_selection` does return exactly two view
items, but it does not log one warning — the loop body makes two
`log.warning` calls for the missing id (one naming it, one listing its
nodes). -/
theorem create_items_warning_count_cex :
    (cis_found cexEnv (create_asset_id_hash cexEnv.get_id cexContent)).length = 2 ∧
    (cis_missing cexEnv (create_asset_id_hash cexEnv.get_id cexContent)).length = 1 ∧
    (create_items_from_selection cexEnv cexContent).1.length = 2 ∧
    ¬ ((create_items_from_selection cexEnv cexContent).2.length = 1) := by
  refine ⟨by decide, by decide, by decide, by decide⟩

/-- C4 witness: the amended count theorem applied to the sample scene. -/
theorem create_items_two_known_one_unknown_witness :
    ((cis_found cexEnv (create_asset_id_hash cexEnv.get_id cexContent)).length = 2 ∧
     (cis_missing cexEnv (create_asset_id_hash cexEnv.get_id cexContent)).length = 1) ∧
    ((create_items_from_selection cexEnv cexContent).1.length = 2 ∧
     (create_items_from_selection cexEnv cexContent).2.length = 2) :=
  ⟨⟨by decide, by decide⟩,
   create_items_two_known_one_unknown cexEnv cexContent (by decide) (by decide)⟩

/-- The first view item produced for the sample scene. -/
def witItem : Item String :=
  { asset := "ns : Hero", asset_name := "Hero", document := cexDocA,
    looks := [], _id := "aaa", nodes := ["n1", "n2"] }

/-- C10 witness: a concrete produced view item has non-empty nodes and
passes the assignment precondition. -/
theorem create_items_nodes_nonempty_witness :
    (witItem ∈ (create_items_from_selection cexEnv cexContent).1) ∧
    (witItem.nodes ≠ [] ∧
     ∀ ver, process_queued_item (QEntry.mk witItem.nodes ver) ≠
       (PQResult.assertionError : PQResult String)) :=
  ⟨by decide, create_items_nodes_nonempty cexEnv cexContent witItem (by decide)⟩

/-- A sample queue item whose document ids are `ObjectId` values and whose
single look record carries only string id values. -/
def witQItem : Item String :=
  { asset := "ns : Hero", asset_name := "Hero",
    document := ⟨DBId.oid "0123", DBId.oid "4567", "Hero"⟩,
    looks := [{ asset_name := "Hero", subset := "lookDefault",
                version := some ⟨DBId.str "89ab", "version", DBId.str "cdef", "3"⟩ }],
    _id := "0123", nodes := ["n1"] }

/-- C3 witness: the amended round-trip law applied to a concrete queue. -/
theorem queue_roundtrip_witness :
    (∀ item ∈ [witQItem], item.document._id.isOid = true ∧
       item.document.parent.isOid = true) ∧
    (∀ item ∈ [witQItem], ∀ r ∈ item.looks, ∀ v, r.version = some v →
       v._id.isOid = false ∧ v.parent.isOid = false) ∧
    (∃ mid, json_roundtrip (create_queue_out_data [witQItem]) = some mid ∧
       List.Forall₂ (fun a b =>
          a.document._id = b.document._id ∧ a.document.parent = b.document.parent)
         (create_queue_in_data mid) [witQItem]) :=
  ⟨by decide, by decide, queue_roundtrip [witQItem] (by decide) (by decide)⟩

/-- A queue item exactly as this module itself builds them: document ids
are `ObjectId` values and a fetched look carries a version document whose
`_id` and `parent` are `ObjectId` values (as `fetch_looks` returns them). -/
def cexQItem : Item String :=
  { asset := "ns : Hero", asset_name := "Hero",
    document := ⟨DBId.oid "0123", DBId.oid "4567", "Hero"⟩,
    looks := [{ asset_name := "Hero", subset := "lookDefault",
                version := some ⟨DBId.oid "89ab", "version", DBId.oid "cdef", "3"⟩ }],
    _id := "0123", nodes := ["n1"] }

/-- C3 counterexample: on an in-scope queue item (document `_id` and
`parent` are id values) whose look holds a version document with
`ObjectId` fields — the shape `fetch_looks` produces — the JSON encode of
`create_queue_out_data`'s output fails (`json.dump` raises `TypeError`,
since only the document's two id fields were stringified), so the claimed
round trip never takes place. -/
theorem queue_roundtrip_cex :
    cexQItem.document._id.isOid = true ∧ cexQItem.document.parent.isOid = true ∧
    json_roundtrip (create_queue_out_data [cexQItem]) = none :=
  ⟨by decide, by decide, by decide⟩

/-- C5 witness: the empty-entry contract failure at a concrete entry. -/
theorem process_queued_item_empty_nodes_witness :
    (QEntry.mk ([] : List String) none).nodes = [] ∧
    (process_queued_item (QEntry.mk ([] : List String) none) =
       PQResult.assertionError ∧
     ∀ ns vid, process_queued_item (QEntry.mk ([] : List String) none) ≠
       PQResult.assigned ns vid) :=
  ⟨rfl, process_queued_item_empty_nodes _ rfl⟩

/-- A concrete three-node chain for the descendant expansion. -/
def wch : Fin 3 → List (Fin 3) :=
  fun i => if i = 0 then [1] else if i = 1 then [2] else []

/-- A depth measure strictly decreasing along `wch`. -/
def wdepth : Fin 3 → Nat := fun i => 2 - i.val

/-- C7 witness: the termination-and-correctness theorem applied to the
concrete chain with bound 2 and fuel 3. -/
theorem list_descendents_correct_witness :
    (∀ y : Fin 3, ∀ c ∈ wch y, wdepth c < wdepth y) ∧
    (∀ r ∈ ([0] : List (Fin 3)), wdepth r ≤ 2) ∧
    (2 + 1 ≤ 3) ∧
    (list_descendents wch 3 [0] = list_descendents wch (2 + 1) [0] ∧
     ∀ x, x ∈ list_descendents wch 3 [0] ↔ IsDescendant wch [0] x) :=
  ⟨by decide, by decide, by decide,
   list_descendents_correct wch wdepth 2 [0] 3 (by decide) (by decide) (by decide)⟩

end MLA
